import Mathlib

/-!
Verification of the Black-Scholes-Merton pricing module (`bsm_pricer.py`).

The module is embedded shallowly over the real numbers: the three dataclasses
become structures, the four pure functions become Lean functions on `ℝ`, and
`scipy.stats.norm.cdf` is modelled as the genuine standard normal cumulative
distribution function, defined as the Lebesgue integral of the Gaussian
density over `Iic x`.
-/

open Real MeasureTheory Set intervalIntegral

noncomputable section

/-- The standard normal probability density function. -/
def normPdf (x : ℝ) : ℝ := (Real.sqrt (2 * Real.pi))⁻¹ * Real.exp (-x ^ 2 / 2)

/-- `scipy.stats.norm.cdf`: the standard normal cumulative distribution function. -/
def normCdf (x : ℝ) : ℝ := ∫ t in Iic x, normPdf t

/-- `@dataclass class Equity`: spot, continuously compounded dividend yield, volatility. -/
structure Equity where
  spot : ℝ
  dividend_yield : ℝ
  volatility : ℝ

/-- `@dataclass class EquityOption`: strike, time to maturity (years), option type token. -/
structure EquityOption where
  strike : ℝ
  time_to_maturity : ℝ
  put_call : String

/-- `@dataclass class EquityForward`: strike and time to maturity. -/
structure EquityForward where
  strike : ℝ
  time_to_maturity : ℝ

/-- Python's `str.lower()` as used in `option.put_call.lower()`: lowercase every
character of the string. -/
def pyLower (s : String) : String := String.mk (s.data.map Char.toLower)

/-- The denominator `sigma * np.sqrt(T)` of the `d1` expression in `bsm_pricer`. -/
def d1_denominator (sigma T : ℝ) : ℝ := sigma * Real.sqrt T

/-- `d1 = (np.log(S/K) + (r - q + 0.5 * sigma**2) * T) / (sigma * np.sqrt(T))`. -/
def bsm_d1 (S K T r q sigma : ℝ) : ℝ :=
  (Real.log (S / K) + (r - q + 0.5 * sigma ^ 2) * T) / d1_denominator sigma T

/-- `d2 = d1 - sigma * np.sqrt(T)`. -/
def bsm_d2 (S K T r q sigma : ℝ) : ℝ :=
  bsm_d1 S K T r q sigma - sigma * Real.sqrt T

/-- `def bsm_pricer(underlying, option, rate)`: Black-Scholes-Merton price with
continuous dividends; intrinsic value on the `T <= 0` branch, the closed-form
formula otherwise, with the put branch as the `else` of the `"call"` test. -/
def bsm_pricer (underlying : Equity) (option : EquityOption) (rate : ℝ) : ℝ :=
  let S := underlying.spot
  let K := option.strike
  let T := option.time_to_maturity
  let r := rate
  let q := underlying.dividend_yield
  let sigma := underlying.volatility
  if T ≤ 0 then
    if pyLower option.put_call = "call" then max (S - K) 0 else max (K - S) 0
  else
    let d1 := bsm_d1 S K T r q sigma
    let d2 := bsm_d2 S K T r q sigma
    if pyLower option.put_call = "call" then
      S * Real.exp (-q * T) * normCdf d1 - K * Real.exp (-r * T) * normCdf d2
    else
      K * Real.exp (-r * T) * normCdf (-d2) - S * Real.exp (-q * T) * normCdf (-d1)

/-- `def bsm_delta(underlying, option, rate, bump)`: central finite difference for delta. -/
def bsm_delta (underlying : Equity) (option : EquityOption) (rate bump : ℝ) : ℝ :=
  let original_spot := underlying.spot
  let bump_up_spot := original_spot * (1 + bump)
  let bump_down_spot := original_spot * (1 - bump)
  let underlying_up : Equity := ⟨bump_up_spot, underlying.dividend_yield, underlying.volatility⟩
  let underlying_down : Equity := ⟨bump_down_spot, underlying.dividend_yield, underlying.volatility⟩
  let price_up := bsm_pricer underlying_up option rate
  let price_down := bsm_pricer underlying_down option rate
  (price_up - price_down) / (2 * (bump * original_spot))

/-- `bsm_delta` with its default argument `bump=0.001`. -/
def bsm_delta_default (underlying : Equity) (option : EquityOption) (rate : ℝ) : ℝ :=
  bsm_delta underlying option rate 0.001

/-- `def bsm_gamma(underlying, option, rate, bump)`: central second difference for gamma. -/
def bsm_gamma (underlying : Equity) (option : EquityOption) (rate bump : ℝ) : ℝ :=
  let original_spot := underlying.spot
  let bump_up_spot := original_spot * (1 + bump)
  let bump_down_spot := original_spot * (1 - bump)
  let underlying_up : Equity := ⟨bump_up_spot, underlying.dividend_yield, underlying.volatility⟩
  let underlying_down : Equity := ⟨bump_down_spot, underlying.dividend_yield, underlying.volatility⟩
  let price_up := bsm_pricer underlying_up option rate
  let price_mid := bsm_pricer underlying option rate
  let price_down := bsm_pricer underlying_down option rate
  (price_up + price_down - 2 * price_mid) / (bump * original_spot) ^ 2

/-- `bsm_gamma` with its default argument `bump=0.001`. -/
def bsm_gamma_default (underlying : Equity) (option : EquityOption) (rate : ℝ) : ℝ :=
  bsm_gamma underlying option rate 0.001

/-- `def fwd_pricer(underlying, forward, rate)`:
`S*np.exp((r - q)*T) - K*np.exp(-r*T)`. -/
def fwd_pricer (underlying : Equity) (forward : EquityForward) (rate : ℝ) : ℝ :=
  let S := underlying.spot
  let q := underlying.dividend_yield
  let r := rate
  let K := forward.strike
  let T := forward.time_to_maturity
  S * Real.exp ((r - q) * T) - K * Real.exp (-r * T)

/-! ### Analytic facts about the standard normal distribution -/

lemma normPdf_integrable : Integrable normPdf := by
  have h : Integrable (fun x : ℝ => Real.exp (-(1 / 2 : ℝ) * x ^ 2)) :=
    integrable_exp_neg_mul_sq (by norm_num)
  have heq : normPdf = fun x : ℝ =>
      (Real.sqrt (2 * Real.pi))⁻¹ * Real.exp (-(1 / 2 : ℝ) * x ^ 2) := by
    funext x
    simp only [normPdf]
    congr 1
    ring_nf
  rw [heq]
  exact h.const_mul _

lemma normPdf_nonneg (x : ℝ) : 0 ≤ normPdf x :=
  mul_nonneg (inv_nonneg.mpr (Real.sqrt_nonneg _)) (Real.exp_pos _).le

lemma normPdf_continuous : Continuous normPdf := by
  unfold normPdf
  fun_prop

lemma normPdf_even (x : ℝ) : normPdf (-x) = normPdf x := by
  simp only [normPdf, neg_sq]

lemma integral_normPdf : ∫ x, normPdf x = 1 := by
  have hgauss : ∫ x : ℝ, Real.exp (-(1 / 2 : ℝ) * x ^ 2) = Real.sqrt (Real.pi / (1 / 2)) :=
    integral_gaussian (1 / 2)
  have heq : ∫ x, normPdf x =
      (Real.sqrt (2 * Real.pi))⁻¹ * ∫ x : ℝ, Real.exp (-(1 / 2 : ℝ) * x ^ 2) := by
    rw [← MeasureTheory.integral_mul_left]
    congr 1
    funext x
    simp only [normPdf]
    congr 1
    ring_nf
  rw [heq, hgauss]
  have hpi : Real.pi / (1 / 2) = 2 * Real.pi := by ring
  rw [hpi]
  exact inv_mul_cancel₀ (Real.sqrt_pos.mpr (by positivity)).ne'

lemma normCdf_add_neg (x : ℝ) : normCdf x + normCdf (-x) = 1 := by
  have h2 : normCdf (-x) = ∫ t in Ioi x, normPdf t := by
    unfold normCdf
    calc (∫ t in Iic (-x), normPdf t)
        = ∫ t in Iic (-x), normPdf (-t) := by simp only [normPdf_even]
      _ = ∫ t in Ioi (-(-x)), normPdf t := integral_comp_neg_Iic (-x) normPdf
      _ = ∫ t in Ioi x, normPdf t := by rw [neg_neg]
  rw [h2]
  unfold normCdf
  rw [integral_Iic_add_Ioi normPdf_integrable.integrableOn normPdf_integrable.integrableOn]
  exact integral_normPdf

lemma normCdf_neg (x : ℝ) : normCdf (-x) = 1 - normCdf x := by
  have := normCdf_add_neg x
  linarith

lemma normCdf_eq_add_intervalIntegral (x : ℝ) :
    normCdf x = normCdf 0 + ∫ t in (0 : ℝ)..x, normPdf t := by
  unfold normCdf
  rw [← integral_Iic_sub_Iic normPdf_integrable.integrableOn normPdf_integrable.integrableOn]
  ring

lemma normCdf_hasDerivAt (x : ℝ) : HasDerivAt normCdf (normPdf x) x := by
  have h : HasDerivAt (fun u => ∫ t in (0 : ℝ)..u, normPdf t) (normPdf x) x :=
    intervalIntegral.integral_hasDerivAt_right
      normPdf_integrable.intervalIntegrable
      normPdf_continuous.stronglyMeasurable.stronglyMeasurableAtFilter
      normPdf_continuous.continuousAt
  have heq : normCdf = fun u => normCdf 0 + ∫ t in (0 : ℝ)..u, normPdf t :=
    funext normCdf_eq_add_intervalIntegral
  rw [heq]
  exact h.const_add (normCdf 0)

lemma normCdf_monotone : Monotone normCdf := by
  apply monotone_of_deriv_nonneg
  · exact fun x => (normCdf_hasDerivAt x).differentiableAt
  · intro x
    rw [(normCdf_hasDerivAt x).deriv]
    exact normPdf_nonneg x

/-! #### Derivative and convexity of the Black-Scholes-Merton price in the spot -/

lemma bsm_d1_hasDerivAt (K T r q σ : ℝ) (hK : 0 < K) (x : ℝ) (hx : 0 < x) :
    HasDerivAt (fun y => bsm_d1 y K T r q σ) (x⁻¹ / d1_denominator σ T) x := by
  have hKne : K ≠ 0 := hK.ne'
  have hdiv : HasDerivAt (fun y : ℝ => y / K) (1 / K) x := by
    simpa using (hasDerivAt_id x).div_const K
  have hlog : HasDerivAt (fun y : ℝ => Real.log (y / K)) ((x / K)⁻¹ * (1 / K)) x :=
    (Real.hasDerivAt_log (div_ne_zero hx.ne' hKne)).comp x hdiv
  have h2 : HasDerivAt
      (fun y : ℝ => (Real.log (y / K) + (r - q + 0.5 * σ ^ 2) * T) / d1_denominator σ T)
      (((x / K)⁻¹ * (1 / K)) / d1_denominator σ T) x :=
    (hlog.add_const _).div_const _
  have heq : (x / K)⁻¹ * (1 / K) = x⁻¹ := by
    field_simp
    ring
  rw [heq] at h2
  simp only [bsm_d1]
  exact h2

lemma bsm_d2_hasDerivAt (K T r q σ : ℝ) (hK : 0 < K) (x : ℝ) (hx : 0 < x) :
    HasDerivAt (fun y => bsm_d2 y K T r q σ) (x⁻¹ / d1_denominator σ T) x := by
  have h := (bsm_d1_hasDerivAt K T r q σ hK x hx).sub_const (σ * Real.sqrt T)
  simp only [bsm_d2]
  exact h

lemma bsm_pdf_identity (K T r q σ x : ℝ) (hK : 0 < K) (hT : 0 < T) (hσ : 0 < σ) (hx : 0 < x) :
    K * Real.exp (-r * T) * normPdf (bsm_d2 x K T r q σ) =
      x * Real.exp (-q * T) * normPdf (bsm_d1 x K T r q σ) := by
  have hsq : Real.sqrt T ^ 2 = T := Real.sq_sqrt hT.le
  have hs0 : 0 < Real.sqrt T := Real.sqrt_pos.mpr hT
  have hcne : σ * Real.sqrt T ≠ 0 := (mul_pos hσ hs0).ne'
  have hxK : 0 < x / K := div_pos hx hK
  have hdc : bsm_d1 x K T r q σ * (σ * Real.sqrt T) =
      Real.log (x / K) + (r - q + 0.5 * σ ^ 2) * T := by
    simp only [bsm_d1, d1_denominator]
    field_simp
  have hexp : Real.exp (-(bsm_d1 x K T r q σ - σ * Real.sqrt T) ^ 2 / 2) =
      Real.exp (-(bsm_d1 x K T r q σ) ^ 2 / 2) * (x / K) * Real.exp ((r - q) * T) := by
    rw [← Real.exp_log hxK, ← Real.exp_add, ← Real.exp_add]
    congr 1
    have expand : -(bsm_d1 x K T r q σ - σ * Real.sqrt T) ^ 2 / 2 =
        -(bsm_d1 x K T r q σ) ^ 2 / 2 + bsm_d1 x K T r q σ * (σ * Real.sqrt T)
          - (σ * Real.sqrt T) ^ 2 / 2 := by ring
    have hc2 : (σ * Real.sqrt T) ^ 2 = σ ^ 2 * T := by rw [mul_pow, hsq]
    rw [expand, hdc, hc2]
    ring
  have hrq : Real.exp (-r * T) * Real.exp ((r - q) * T) = Real.exp (-q * T) := by
    rw [← Real.exp_add]
    congr 1
    ring
  simp only [bsm_d2, normPdf]
  rw [hexp, ← hrq]
  field_simp
  ring

lemma bsm_call_hasDerivAt (K T r q σ x : ℝ) (hK : 0 < K) (hT : 0 < T) (hσ : 0 < σ)
    (hx : 0 < x) :
    HasDerivAt (fun y => y * Real.exp (-q * T) * normCdf (bsm_d1 y K T r q σ)
        - K * Real.exp (-r * T) * normCdf (bsm_d2 y K T r q σ))
      (Real.exp (-q * T) * normCdf (bsm_d1 x K T r q σ)) x := by
  have hd1 := bsm_d1_hasDerivAt K T r q σ hK x hx
  have hd2 := bsm_d2_hasDerivAt K T r q σ hK x hx
  have hN1 : HasDerivAt (fun y => normCdf (bsm_d1 y K T r q σ))
      (normPdf (bsm_d1 x K T r q σ) * (x⁻¹ / d1_denominator σ T)) x :=
    (normCdf_hasDerivAt _).comp x hd1
  have hN2 : HasDerivAt (fun y => normCdf (bsm_d2 y K T r q σ))
      (normPdf (bsm_d2 x K T r q σ) * (x⁻¹ / d1_denominator σ T)) x :=
    (normCdf_hasDerivAt _).comp x hd2
  have hterm1 : HasDerivAt (fun y => y * Real.exp (-q * T) * normCdf (bsm_d1 y K T r q σ))
      (1 * Real.exp (-q * T) * normCdf (bsm_d1 x K T r q σ)
        + x * Real.exp (-q * T) * (normPdf (bsm_d1 x K T r q σ) * (x⁻¹ / d1_denominator σ T))) x :=
    ((hasDerivAt_id x).mul_const (Real.exp (-q * T))).mul hN1
  have hterm2 : HasDerivAt (fun y => K * Real.exp (-r * T) * normCdf (bsm_d2 y K T r q σ))
      (K * Real.exp (-r * T) * (normPdf (bsm_d2 x K T r q σ) * (x⁻¹ / d1_denominator σ T))) x :=
    hN2.const_mul _
  have h := hterm1.sub hterm2
  have hkey := bsm_pdf_identity K T r q σ x hK hT hσ hx
  convert h using 1
  linear_combination (x⁻¹ / d1_denominator σ T) * hkey

lemma bsm_call_convexOn (K T r q σ : ℝ) (hK : 0 < K) (hT : 0 < T) (hσ : 0 < σ) :
    ConvexOn ℝ (Ioi 0) (fun y => y * Real.exp (-q * T) * normCdf (bsm_d1 y K T r q σ)
      - K * Real.exp (-r * T) * normCdf (bsm_d2 y K T r q σ)) := by
  have hder : ∀ x ∈ Ioi (0 : ℝ),
      HasDerivAt (fun y => y * Real.exp (-q * T) * normCdf (bsm_d1 y K T r q σ)
          - K * Real.exp (-r * T) * normCdf (bsm_d2 y K T r q σ))
        (Real.exp (-q * T) * normCdf (bsm_d1 x K T r q σ)) x :=
    fun x hx => bsm_call_hasDerivAt K T r q σ x hK hT hσ hx
  refine MonotoneOn.convexOn_of_deriv (convex_Ioi 0) ?_ ?_ ?_
  · intro x hx
    exact (hder x hx).continuousAt.continuousWithinAt
  · rw [interior_Ioi]
    intro x hx
    exact (hder x hx).differentiableAt.differentiableWithinAt
  · rw [interior_Ioi]
    intro x hx y hy hxy
    rw [(hder x hx).deriv, (hder y hy).deriv]
    refine mul_le_mul_of_nonneg_left ?_ (Real.exp_pos _).le
    refine normCdf_monotone ?_
    simp only [bsm_d1, d1_denominator]
    have hc : 0 < σ * Real.sqrt T := mul_pos hσ (Real.sqrt_pos.mpr hT)
    refine (div_le_div_iff_of_pos_right hc).mpr ?_
    refine add_le_add_right ?_ _
    exact (Real.log_le_log_iff (div_pos hx hK) (div_pos hy hK)).mpr
      ((div_le_div_iff_of_pos_right hK).mpr hxy)

lemma convexOn_affine (a b : ℝ) (s : Set ℝ) (hs : Convex ℝ s) :
    ConvexOn ℝ s (fun x => a * x + b) := by
  refine ⟨hs, fun x _ y _ p q hp hq hpq => ?_⟩
  simp only [smul_eq_mul]
  apply le_of_eq
  have hq1 : q = 1 - p := by linarith
  rw [hq1]
  ring

lemma convexOn_call_intrinsic (K : ℝ) (s : Set ℝ) (hs : Convex ℝ s) :
    ConvexOn ℝ s (fun x => max (x - K) 0) := by
  have h := (convexOn_affine 1 (-K) s hs).sup (convexOn_const 0 hs)
  have heq : ((fun x => 1 * x + -K) ⊔ fun _ : ℝ => (0 : ℝ)) = fun x => max (x - K) 0 := by
    funext x
    simp only [Pi.sup_apply, sup_eq_max]
    congr 1
    ring
  rw [heq] at h
  exact h

lemma convexOn_put_intrinsic (K : ℝ) (s : Set ℝ) (hs : Convex ℝ s) :
    ConvexOn ℝ s (fun x => max (K - x) 0) := by
  have h := (convexOn_affine (-1) K s hs).sup (convexOn_const 0 hs)
  have heq : ((fun x => -1 * x + K) ⊔ fun _ : ℝ => (0 : ℝ)) = fun x => max (K - x) 0 := by
    funext x
    simp only [Pi.sup_apply, sup_eq_max]
    congr 1
    ring
  rw [heq] at h
  exact h

lemma bsm_put_convexOn (K T r q σ : ℝ) (hK : 0 < K) (hT : 0 < T) (hσ : 0 < σ) :
    ConvexOn ℝ (Ioi 0) (fun y => K * Real.exp (-r * T) * normCdf (-(bsm_d2 y K T r q σ))
      - y * Real.exp (-q * T) * normCdf (-(bsm_d1 y K T r q σ))) := by
  have h := (bsm_call_convexOn K T r q σ hK hT hσ).add
    (convexOn_affine (-(Real.exp (-q * T))) (K * Real.exp (-r * T)) (Ioi 0) (convex_Ioi 0))
  have heq : ((fun y => y * Real.exp (-q * T) * normCdf (bsm_d1 y K T r q σ)
        - K * Real.exp (-r * T) * normCdf (bsm_d2 y K T r q σ))
      + fun x => -(Real.exp (-q * T)) * x + K * Real.exp (-r * T)) =
      fun y => K * Real.exp (-r * T) * normCdf (-(bsm_d2 y K T r q σ))
        - y * Real.exp (-q * T) * normCdf (-(bsm_d1 y K T r q σ)) := by
    funext y
    simp only [Pi.add_apply]
    rw [normCdf_neg, normCdf_neg]
    ring
  rw [heq] at h
  exact h

lemma bsm_pricer_spot_convexOn (K T : ℝ) (pc : String) (r q σ : ℝ) (hK : 0 < K)
    (hTσ : 0 < T → 0 < σ) :
    ConvexOn ℝ (Ioi 0) (fun x => bsm_pricer ⟨x, q, σ⟩ ⟨K, T, pc⟩ r) := by
  by_cases hT : T ≤ 0
  · by_cases hc : pyLower pc = "call"
    · have heq : (fun x => bsm_pricer ⟨x, q, σ⟩ ⟨K, T, pc⟩ r) = fun x => max (x - K) 0 := by
        funext x
        simp [bsm_pricer, hT, hc]
      rw [heq]
      exact convexOn_call_intrinsic K _ (convex_Ioi 0)
    · have heq : (fun x => bsm_pricer ⟨x, q, σ⟩ ⟨K, T, pc⟩ r) = fun x => max (K - x) 0 := by
        funext x
        simp [bsm_pricer, hT, hc]
      rw [heq]
      exact convexOn_put_intrinsic K _ (convex_Ioi 0)
  · push_neg at hT
    have hσ := hTσ hT
    by_cases hc : pyLower pc = "call"
    · have heq : (fun x => bsm_pricer ⟨x, q, σ⟩ ⟨K, T, pc⟩ r) = fun x =>
          x * Real.exp (-q * T) * normCdf (bsm_d1 x K T r q σ)
            - K * Real.exp (-r * T) * normCdf (bsm_d2 x K T r q σ) := by
        funext x
        simp [bsm_pricer, not_le.mpr hT, hc]
      rw [heq]
      exact bsm_call_convexOn K T r q σ hK hT hσ
    · have heq : (fun x => bsm_pricer ⟨x, q, σ⟩ ⟨K, T, pc⟩ r) = fun x =>
          K * Real.exp (-r * T) * normCdf (-(bsm_d2 x K T r q σ))
            - x * Real.exp (-q * T) * normCdf (-(bsm_d1 x K T r q σ)) := by
        funext x
        simp [bsm_pricer, not_le.mpr hT, hc]
      rw [heq]
      exact bsm_put_convexOn K T r q σ hK hT hσ

/-! ### Claims -/

/-- C1: for positive spot, volatility, strike and maturity, `bsm_pricer` returns
`S*exp(-q*T)*N(d1) - K*exp(-r*T)*N(d2)` when the option type lowercases to
`"call"` and `K*exp(-r*T)*N(-d2) - S*exp(-q*T)*N(-d1)` otherwise, where
`d1 = (ln(S/K) + (r - q + 0.5*sigma^2)*T)/(sigma*sqrt(T))`,
`d2 = d1 - sigma*sqrt(T)` and `N` is the standard normal CDF. -/
theorem bsm_pricer_general_formula (S q σ K T : ℝ) (pc : String) (r : ℝ)
    (hS : 0 < S) (hσ : 0 < σ) (hK : 0 < K) (hT : 0 < T) :
    (pyLower pc = "call" →
      bsm_pricer ⟨S, q, σ⟩ ⟨K, T, pc⟩ r =
        S * Real.exp (-q * T) *
            normCdf ((Real.log (S / K) + (r - q + 0.5 * σ ^ 2) * T) / (σ * Real.sqrt T)) -
          K * Real.exp (-r * T) *
            normCdf ((Real.log (S / K) + (r - q + 0.5 * σ ^ 2) * T) / (σ * Real.sqrt T) -
              σ * Real.sqrt T)) ∧
    (pyLower pc ≠ "call" →
      bsm_pricer ⟨S, q, σ⟩ ⟨K, T, pc⟩ r =
        K * Real.exp (-r * T) *
            normCdf (-((Real.log (S / K) + (r - q + 0.5 * σ ^ 2) * T) / (σ * Real.sqrt T) -
              σ * Real.sqrt T)) -
          S * Real.exp (-q * T) *
            normCdf (-((Real.log (S / K) + (r - q + 0.5 * σ ^ 2) * T) / (σ * Real.sqrt T)))) := by
  constructor <;> intro h <;>
    simp [bsm_pricer, bsm_d1, bsm_d2, d1_denominator, not_le.mpr hT, h]

/-- Witness for C1 at `S = K = T = sigma = 1`, `q = r = 0`, option type `"call"`. -/
theorem bsm_pricer_general_formula_witness :
    bsm_pricer ⟨1, 0, 1⟩ ⟨1, 1, "call"⟩ 0 =
      1 * Real.exp (-0 * 1) *
          normCdf ((Real.log (1 / 1) + (0 - 0 + 0.5 * 1 ^ 2) * 1) / (1 * Real.sqrt 1)) -
        1 * Real.exp (-0 * 1) *
          normCdf ((Real.log (1 / 1) + (0 - 0 + 0.5 * 1 ^ 2) * 1) / (1 * Real.sqrt 1) -
            1 * Real.sqrt 1) :=
  (bsm_pricer_general_formula 1 0 1 1 1 "call" 0 one_pos one_pos one_pos one_pos).1 (by decide)

/-- C2: with non-positive time to maturity `bsm_pricer` returns the intrinsic
value `max(S-K, 0)` for a call and `max(K-S, 0)` otherwise, whatever the
volatility, rate and dividend yield. -/
theorem bsm_pricer_intrinsic_value (S q σ K T : ℝ) (pc : String) (r : ℝ) (hT : T ≤ 0) :
    (pyLower pc = "call" → bsm_pricer ⟨S, q, σ⟩ ⟨K, T, pc⟩ r = max (S - K) 0) ∧
    (pyLower pc ≠ "call" → bsm_pricer ⟨S, q, σ⟩ ⟨K, T, pc⟩ r = max (K - S) 0) := by
  constructor <;> intro h <;> simp [bsm_pricer, hT, h]

/-- Witness for C2 at `T = 0` for both a call and a put. -/
theorem bsm_pricer_intrinsic_value_witness :
    bsm_pricer ⟨2, 0, 1⟩ ⟨1, 0, "call"⟩ 0 = max (2 - 1) 0 ∧
    bsm_pricer ⟨2, 0, 1⟩ ⟨1, 0, "put"⟩ 0 = max (1 - 2) 0 :=
  ⟨(bsm_pricer_intrinsic_value 2 0 1 1 0 "call" 0 le_rfl).1 (by decide),
   (bsm_pricer_intrinsic_value 2 0 1 1 0 "put" 0 le_rfl).2 (by decide)⟩

/-- C3: put-call parity — for positive spot, strike, maturity and volatility,
the call price minus the put price equals `S*exp(-q*T) - K*exp(-r*T)`. -/
theorem bsm_put_call_parity (S q σ K T r : ℝ)
    (hS : 0 < S) (hK : 0 < K) (hT : 0 < T) (hσ : 0 < σ) :
    bsm_pricer ⟨S, q, σ⟩ ⟨K, T, "call"⟩ r - bsm_pricer ⟨S, q, σ⟩ ⟨K, T, "put"⟩ r =
      S * Real.exp (-q * T) - K * Real.exp (-r * T) := by
  have hcall : pyLower "call" = "call" := by decide
  have hput : pyLower "put" ≠ "call" := by decide
  simp only [bsm_pricer, hcall, hput, not_le.mpr hT]
  simp only [if_true, if_false, ite_true, ite_false, not_false_eq_true]
  rw [normCdf_neg, normCdf_neg]
  ring

/-- Witness for C3 at `S = K = T = sigma = 1`, `q = r = 0`. -/
theorem bsm_put_call_parity_witness :
    bsm_pricer ⟨1, 0, 1⟩ ⟨1, 1, "call"⟩ 0 - bsm_pricer ⟨1, 0, 1⟩ ⟨1, 1, "put"⟩ 0 =
      1 * Real.exp (-0 * 1) - 1 * Real.exp (-0 * 1) :=
  bsm_put_call_parity 1 0 1 1 1 0 one_pos one_pos one_pos one_pos

/-- C4: `fwd_pricer` returns exactly `S*exp((r - q)*T) - K*exp(-r*T)`, with no
branching and no error conditions. -/
theorem fwd_pricer_closed_form (underlying : Equity) (forward : EquityForward) (rate : ℝ) :
    fwd_pricer underlying forward rate =
      underlying.spot *
          Real.exp ((rate - underlying.dividend_yield) * forward.time_to_maturity)
        - forward.strike * Real.exp (-rate * forward.time_to_maturity) := rfl

/-- C5: the option-type dispatch is case-insensitive and silently defaults to
put: any token whose lowercasing is not `"call"` prices as `"put"`, and
`"PUT"`/`"put"` (likewise `"CALL"`/`"call"`) give identical prices. -/
theorem bsm_pricer_case_insensitive_put_default :
    (∀ (u : Equity) (K T : ℝ) (s : String) (r : ℝ), pyLower s ≠ "call" →
        bsm_pricer u ⟨K, T, s⟩ r = bsm_pricer u ⟨K, T, "put"⟩ r) ∧
    (∀ (u : Equity) (K T r : ℝ),
        bsm_pricer u ⟨K, T, "PUT"⟩ r = bsm_pricer u ⟨K, T, "put"⟩ r) ∧
    (∀ (u : Equity) (K T r : ℝ),
        bsm_pricer u ⟨K, T, "CALL"⟩ r = bsm_pricer u ⟨K, T, "call"⟩ r) := by
  have hput : pyLower "put" ≠ "call" := by decide
  have hgen : ∀ (u : Equity) (K T : ℝ) (s : String) (r : ℝ), pyLower s ≠ "call" →
      bsm_pricer u ⟨K, T, s⟩ r = bsm_pricer u ⟨K, T, "put"⟩ r := by
    intro u K T s r hs
    simp [bsm_pricer, hs, hput]
  refine ⟨hgen, fun u K T r => hgen u K T "PUT" r (by decide), fun u K T r => ?_⟩
  have h1 : pyLower "CALL" = "call" := by decide
  have h2 : pyLower "call" = "call" := by decide
  simp [bsm_pricer, h1, h2]

/-- Witness for C5 with the unrecognized token `"xyz"`. -/
theorem bsm_pricer_case_insensitive_put_default_witness :
    bsm_pricer ⟨100, 0, 1⟩ ⟨90, 1, "xyz"⟩ 0 = bsm_pricer ⟨100, 0, 1⟩ ⟨90, 1, "put"⟩ 0 :=
  bsm_pricer_case_insensitive_put_default.1 ⟨100, 0, 1⟩ 90 1 "xyz" 0 (by decide)

/-- C6: `bsm_delta` is the central difference
`(P(spot*(1+bump)) - P(spot*(1-bump))) / (2*bump*spot)` where `P` re-prices a
freshly constructed `Equity` with the same dividend yield and volatility, and
the default bump is `0.001`. -/
theorem bsm_delta_formula (underlying : Equity) (option : EquityOption) (rate bump : ℝ) :
    bsm_delta underlying option rate bump =
      (bsm_pricer ⟨underlying.spot * (1 + bump), underlying.dividend_yield,
            underlying.volatility⟩ option rate
          - bsm_pricer ⟨underlying.spot * (1 - bump), underlying.dividend_yield,
            underlying.volatility⟩ option rate)
        / (2 * bump * underlying.spot) ∧
    bsm_delta_default underlying option rate = bsm_delta underlying option rate 0.001 := by
  constructor
  · simp only [bsm_delta]
    rw [mul_assoc]
  · rfl

/-- C7: `bsm_gamma` is non-negative for every option type, positive spot and
strike, bump in `(0, 1)`, provided the volatility is positive whenever the
maturity is (convexity of the Black-Scholes-Merton price in the spot). -/
theorem bsm_gamma_nonneg (S q σ K T : ℝ) (pc : String) (r bump : ℝ)
    (hS : 0 < S) (hK : 0 < K) (hb0 : 0 < bump) (hb1 : bump < 1)
    (hTσ : 0 < T → 0 < σ) :
    0 ≤ bsm_gamma ⟨S, q, σ⟩ ⟨K, T, pc⟩ r bump := by
  have hconv := bsm_pricer_spot_convexOn K T pc r q σ hK hTσ
  have hup : S * (1 + bump) ∈ Ioi (0 : ℝ) := mul_pos hS (by linarith)
  have hdown : S * (1 - bump) ∈ Ioi (0 : ℝ) := mul_pos hS (by linarith)
  have hmid := hconv.2 hup hdown (by norm_num : (0:ℝ) ≤ 1/2) (by norm_num : (0:ℝ) ≤ 1/2)
    (by norm_num)
  rw [show (1/2 : ℝ) • (S * (1 + bump)) + (1/2 : ℝ) • (S * (1 - bump)) = S by
    rw [smul_eq_mul, smul_eq_mul]; ring] at hmid
  simp only [smul_eq_mul] at hmid
  simp only [bsm_gamma]
  refine div_nonneg ?_ (sq_nonneg _)
  linarith [hmid]

/-- Witness for C7 at `S = K = T = sigma = 1`, `q = r = 0`, bump `1/2`. -/
theorem bsm_gamma_nonneg_witness : 0 ≤ bsm_gamma ⟨1, 0, 1⟩ ⟨1, 1, "call"⟩ 0 (1/2) :=
  bsm_gamma_nonneg 1 0 1 1 1 "call" 0 (1/2) one_pos one_pos (by norm_num) (by norm_num)
    (fun _ => one_pos)

/-- C8: the division computing `d1` is unguarded — its denominator is exactly
`sigma * sqrt(T)`, which is nonzero under the precondition `sigma > 0`, `T > 0`
(so the computation is total there), and which vanishes whenever `sigma = 0`. -/
theorem d1_denominator_unguarded :
    (∀ S K T r q σ : ℝ, bsm_d1 S K T r q σ =
        (Real.log (S / K) + (r - q + 0.5 * σ ^ 2) * T) / d1_denominator σ T) ∧
    (∀ σ T : ℝ, 0 < σ → 0 < T → d1_denominator σ T ≠ 0) ∧
    (∀ T : ℝ, d1_denominator 0 T = 0) := by
  refine ⟨fun S K T r q σ => rfl, fun σ T hσ hT => ?_, fun T => ?_⟩
  · exact (mul_pos hσ (Real.sqrt_pos.mpr hT)).ne'
  · simp [d1_denominator]

/-- Witness for C8 at `sigma = T = 1` (safe) and `sigma = 0`, `T = 1` (zero). -/
theorem d1_denominator_unguarded_witness :
    d1_denominator 1 1 ≠ 0 ∧ d1_denominator 0 1 = 0 :=
  ⟨d1_denominator_unguarded.2.1 1 1 one_pos one_pos, d1_denominator_unguarded.2.2 1⟩

/-- C9: with non-positive time to maturity, `bsm_pricer` does not depend on the
rate, the dividend yield or the volatility. -/
theorem bsm_pricer_expired_ignores_market_inputs (S K T : ℝ) (pc : String)
    (q₁ σ₁ r₁ q₂ σ₂ r₂ : ℝ) (hT : T ≤ 0) :
    bsm_pricer ⟨S, q₁, σ₁⟩ ⟨K, T, pc⟩ r₁ = bsm_pricer ⟨S, q₂, σ₂⟩ ⟨K, T, pc⟩ r₂ := by
  simp [bsm_pricer, hT]

/-- Witness for C9: two expired calls differing in rate, yield and volatility. -/
theorem bsm_pricer_expired_ignores_market_inputs_witness :
    bsm_pricer ⟨5, 1, 2⟩ ⟨3, 0, "call"⟩ 7 = bsm_pricer ⟨5, 4, 9⟩ ⟨3, 0, "call"⟩ 8 :=
  bsm_pricer_expired_ignores_market_inputs 5 3 0 "call" 1 2 7 4 9 8 le_rfl

/-- C10: with non-positive time to maturity, if the three spots
`S*(1-bump)`, `S`, `S*(1+bump)` lie weakly on the same side of the strike,
`bsm_gamma` returns exactly 0. -/
theorem bsm_gamma_expired_same_side_zero (S q σ K T : ℝ) (pc : String) (r bump : ℝ)
    (hT : T ≤ 0) (hS : 0 < S) (hb0 : 0 < bump) (hb1 : bump < 1)
    (hside : (K ≤ S * (1 - bump) ∧ K ≤ S ∧ K ≤ S * (1 + bump)) ∨
      (S * (1 - bump) ≤ K ∧ S ≤ K ∧ S * (1 + bump) ≤ K)) :
    bsm_gamma ⟨S, q, σ⟩ ⟨K, T, pc⟩ r bump = 0 := by
  by_cases hc : pyLower pc = "call"
  · simp only [bsm_gamma, bsm_pricer, hc, if_pos hT]
    simp only [if_true, ite_true]
    rcases hside with ⟨h1, h2, h3⟩ | ⟨h1, h2, h3⟩
    · rw [max_eq_left (sub_nonneg.mpr h3), max_eq_left (sub_nonneg.mpr h1),
        max_eq_left (sub_nonneg.mpr h2)]
      rw [show S * (1 + bump) - K + (S * (1 - bump) - K) - 2 * (S - K) = 0 by ring, zero_div]
    · rw [max_eq_right (sub_nonpos.mpr h3), max_eq_right (sub_nonpos.mpr h1),
        max_eq_right (sub_nonpos.mpr h2)]
      norm_num
  · simp only [bsm_gamma, bsm_pricer, hc, if_pos hT]
    simp only [if_false, ite_false]
    rcases hside with ⟨h1, h2, h3⟩ | ⟨h1, h2, h3⟩
    · rw [max_eq_right (by linarith : K - S * (1 + bump) ≤ 0),
        max_eq_right (by linarith : K - S * (1 - bump) ≤ 0),
        max_eq_right (by linarith : K - S ≤ 0)]
      norm_num
    · rw [max_eq_left (by linarith : (0:ℝ) ≤ K - S * (1 + bump)),
        max_eq_left (by linarith : (0:ℝ) ≤ K - S * (1 - bump)),
        max_eq_left (by linarith : (0:ℝ) ≤ K - S)]
      rw [show K - S * (1 + bump) + (K - S * (1 - bump)) - 2 * (K - S) = 0 by ring, zero_div]

/-- Witness for C10: an expired put with all three spots below the strike. -/
theorem bsm_gamma_expired_same_side_zero_witness :
    bsm_gamma ⟨1, 0, 0⟩ ⟨3, 0, "put"⟩ 0 (1/2) = 0 :=
  bsm_gamma_expired_same_side_zero 1 0 0 3 0 "put" 0 (1/2) le_rfl one_pos (by norm_num)
    (by norm_num) (Or.inr ⟨by norm_num, by norm_num, by norm_num⟩)

end
